import Mathlib

/-!
Shallow embedding of the `shuguri` repository (a Next.js + Hono web app for
C++ version comparison, RAG-backed documentation generation, and online
compilation), together with proofs about the spec's claims.

Conventions:
* JavaScript strings are modelled as `List Char`; JS `slice`, `trim`,
  `lastIndexOf` are reimplemented with JS semantics (negative index
  clamping, ASCII whitespace).
* External services (filesystem JSON reads, Supabase, LLM providers,
  SHA-256 from node:crypto) are passed in as explicit oracle parameters.
* `while` loops that can in principle diverge are given an explicit fuel
  parameter; `none` means the loop did not finish within the given fuel,
  and `∀ fuel, ... = none` exhibits actual non-termination.
-/

namespace Shuguri

/-! ## C++ version identifiers and the diff analyzer
    (src/services/diff: `getUpgradePath`, `mergeDiffCategories`,
    `filterCategories`, `analyzeDiff`) -/

inductive CppVersionId
  | cpp98 | cpp03 | cpp11 | cpp14 | cpp17 | cpp20 | cpp23
deriving DecidableEq, Repr, Fintype

open CppVersionId

/-- `versionOrder` array from `getUpgradePath`. -/
def versionOrder : List CppVersionId := [cpp98, cpp03, cpp11, cpp14, cpp17, cpp20, cpp23]

/-- `versionOrder.indexOf(v)`. Every `CppVersionId` occurs in `versionOrder`,
so the JS `indexOf` never returns `-1` here and a `Nat` result is faithful. -/
def vIndex (v : CppVersionId) : Nat := versionOrder.indexOf v

/-- `getVersionPairs()`: the hardcoded supported upgrade steps. -/
def versionPairs : List (CppVersionId × CppVersionId) := [(cpp11, cpp14), (cpp14, cpp17)]

/-- The `while (current !== target)` walk inside `getUpgradePath`.  The JS
loop terminates because each hardcoded pair strictly advances the version;
fuel 8 exceeds the longest possible chain over the 7 versions. -/
def upgradeWalk : Nat → CppVersionId → CppVersionId → List (CppVersionId × CppVersionId)
  | 0, _, _ => []
  | fuel + 1, current, target =>
    if current = target then []
    else
      match versionPairs.find? (fun p => p.1 = current) with
      | none => []
      | some p => if p.2 = target then [p] else p :: upgradeWalk fuel p.2 target

/-- `getUpgradePath(source, target)`.  The `indexOf === -1` branches are dead
for the typed enum, leaving the `sourceIndex >= targetIndex` guard. -/
def getUpgradePath (source target : CppVersionId) : List (CppVersionId × CppVersionId) :=
  if vIndex target ≤ vIndex source then [] else upgradeWalk 8 source target

/-- `DiffCategory` (shared types): the five category arrays, with item type
abstracted as `α`. -/
structure DiffCategory (α : Type) where
  newFeatures : List α
  behaviorChanges : List α
  deprecated : List α
  removed : List α
  libraryChanges : List α
deriving DecidableEq, Repr

/-- `StoredDiffData` as read from a `data/diffs/*.json` file; each category
field may be absent in the JSON (`data.newFeatures || []` in `analyzeDiff`). -/
structure StoredDiffData (α : Type) where
  newFeatures : Option (List α)
  behaviorChanges : Option (List α)
  deprecated : Option (List α)
  removed : Option (List α)
  libraryChanges : Option (List α)
deriving DecidableEq, Repr

/-- The per-step category record `analyzeDiff` builds from loaded data
(`data.x || []`). -/
def storedToCategory {α : Type} (d : StoredDiffData α) : DiffCategory α :=
  ⟨d.newFeatures.getD [], d.behaviorChanges.getD [], d.deprecated.getD [],
    d.removed.getD [], d.libraryChanges.getD []⟩

/-- The empty `merged` accumulator in `mergeDiffCategories`. -/
def emptyCategory {α : Type} : DiffCategory α := ⟨[], [], [], [], []⟩

/-- One iteration of the `for (const cat of categories)` loop in
`mergeDiffCategories`: push all five arrays. -/
def catAppend {α : Type} (a b : DiffCategory α) : DiffCategory α :=
  ⟨a.newFeatures ++ b.newFeatures, a.behaviorChanges ++ b.behaviorChanges,
    a.deprecated ++ b.deprecated, a.removed ++ b.removed,
    a.libraryChanges ++ b.libraryChanges⟩

/-- `mergeDiffCategories(categories)`. -/
def mergeDiffCategories {α : Type} (cats : List (DiffCategory α)) : DiffCategory α :=
  cats.foldl catAppend emptyCategory

/-- Keys of `DiffCategory` usable in the `categories` filter of a request. -/
inductive DiffCatKey
  | newFeatures | behaviorChanges | deprecated | removed | libraryChanges
deriving DecidableEq, Repr

/-- `filterCategories(diff, filter)`. -/
def filterCategories {α : Type} (diff : DiffCategory α) (filt : Option (List DiffCatKey)) :
    DiffCategory α :=
  match filt with
  | none => diff
  | some l =>
    if l = [] then diff
    else
      ⟨if l.contains .newFeatures then diff.newFeatures else [],
        if l.contains .behaviorChanges then diff.behaviorChanges else [],
        if l.contains .deprecated then diff.deprecated else [],
        if l.contains .removed then diff.removed else [],
        if l.contains .libraryChanges then diff.libraryChanges else []⟩

/-- `DiffAnalysisRequest` (the `summary` strings of results are opaque text
and are not modelled). -/
structure DiffAnalysisRequest where
  sourceVersion : CppVersionId
  targetVersion : CppVersionId
  categories : Option (List DiffCatKey)
deriving DecidableEq, Repr

structure DiffAnalysisResult (α : Type) where
  source : CppVersionId
  target : CppVersionId
  diff : DiffCategory α
  totalChanges : Nat
deriving DecidableEq, Repr

/-- `loadDiffData`: reading `data/diffs/{source}-{target}.json` is a
filesystem effect, modelled as an oracle from version pairs to optionally
present stored data (`null` on read/parse failure). -/
def DiffEnv (α : Type) : Type := CppVersionId × CppVersionId → Option (StoredDiffData α)

def categoryTotal {α : Type} (d : DiffCategory α) : Nat :=
  d.newFeatures.length + d.behaviorChanges.length + d.deprecated.length +
    d.removed.length + d.libraryChanges.length

/-- `analyzeDiff(request)`: throws when the upgrade path is empty, otherwise
loads each step's data (skipping missing files), merges, filters, counts. -/
def analyzeDiff {α : Type} (env : DiffEnv α) (req : DiffAnalysisRequest) :
    Except String (DiffAnalysisResult α) :=
  let path := getUpgradePath req.sourceVersion req.targetVersion
  if path = [] then
    .error "No upgrade path found"
  else
    let allCategories := path.filterMap (fun p => (env p).map storedToCategory)
    let merged := filterCategories (mergeDiffCategories allCategories) req.categories
    .ok ⟨req.sourceVersion, req.targetVersion, merged, categoryTotal merged⟩

/-- The per-step categories loaded along a path (spec side of claim C1):
steps whose data file is missing are skipped. -/
def loadedCategories {α : Type} (env : DiffEnv α)
    (path : List (CppVersionId × CppVersionId)) : List (DiffCategory α) :=
  path.filterMap (fun p => (env p).map storedToCategory)

/-! ## POST /api/diff route (src/apps/api/src/routes/diff.ts) -/

/-- Outcome of the zod `safeParse` of the request body. -/
inductive DiffBody
  | invalid
  | valid (req : DiffAnalysisRequest)
deriving DecidableEq, Repr

/-- HTTP status plus whether `analyzeDiff` was invoked by the handler. -/
structure DiffPostOutcome where
  status : Nat
  calledAnalyze : Bool
deriving DecidableEq, Repr

/-- The `diffRouter.post('/')` handler: 400 on validation failure, 400 when
`sourceIndex >= targetIndex`, otherwise `analyzeDiff` with errors mapped
to 500. -/
def diffPost {α : Type} (env : DiffEnv α) (body : DiffBody) : DiffPostOutcome :=
  match body with
  | .invalid => ⟨400, false⟩
  | .valid req =>
    if vIndex req.targetVersion ≤ vIndex req.sourceVersion then ⟨400, false⟩
    else
      match analyzeDiff env req with
      | .error _ => ⟨500, true⟩
      | .ok _ => ⟨200, true⟩

/-- `true` exactly on `Except.error`. -/
def exceptIsError {ε α : Type} : Except ε α → Bool
  | .error _ => true
  | .ok _ => false

/-- Concrete loader used to exercise the diff analyzer: only the
`cpp11-cpp14` data file exists and holds one behavior change. -/
def diffEnvCex : DiffEnv Nat := fun p =>
  if p = (cpp11, cpp14) then some ⟨some [], some [7], some [], some [], some []⟩ else none

/-- Concrete request with a category filter that keeps only `newFeatures`. -/
def diffReqCex : DiffAnalysisRequest := ⟨cpp11, cpp14, some [.newFeatures]⟩

/-! ## Per-IP rate limiter of the compile routes (src/routes/compile.ts:
`requestCounts`, `checkRateLimit`) -/

/-- One value of the `requestCounts` map. -/
structure RateRecord where
  count : Nat
  resetAt : Int
deriving DecidableEq, Repr

/-- The in-memory `requestCounts` map, keyed by client IP.
`Date.now()` timestamps are modelled as integers (milliseconds). -/
def RateState : Type := String → Option RateRecord

def emptyRateState : RateState := fun _ => none

def rateSet (st : RateState) (ip : String) (r : RateRecord) : RateState :=
  fun k => if k = ip then some r else st k

def rateMax : Nat := 10

def rateWindow : Int := 60000

/-- `checkRateLimit(ip)` at time `now`: returns the boolean result and the
updated `requestCounts` map. -/
def checkRateLimit (now : Int) (ip : String) (st : RateState) : Bool × RateState :=
  match st ip with
  | none => (true, rateSet st ip ⟨1, now + rateWindow⟩)
  | some record =>
    if record.resetAt < now then (true, rateSet st ip ⟨1, now + rateWindow⟩)
    else if rateMax ≤ record.count then (false, st)
    else (true, rateSet st ip ⟨record.count + 1, record.resetAt⟩)

/-- A sequence of `checkRateLimit` calls for one IP at the given times,
collecting the returned booleans. -/
def rlRun (ip : String) : List Int → RateState → List Bool × RateState
  | [], st => ([], st)
  | t :: ts, st =>
    let r := checkRateLimit t ip st
    let rest := rlRun ip ts r.2
    (r.1 :: rest.1, rest.2)

/-- The rate-limit gate at the top of `compileRouter.post('/')` and
`post('/execute')`: `some 429` when the request is rejected. -/
def compileRateCheck (now : Int) (ip : String) (st : RateState) :
    Option Nat × RateState :=
  let r := checkRateLimit now ip st
  (if r.1 then none else some 429, r.2)

/-! ## Batch ingestion (src/services/rag/processor.ts:
`DocumentProcessor.ingestBatch`) -/

/-- `result.reason?.message || 'Unknown error'`: a rejection may carry no
message (`none`), and an empty message string is falsy in JS. -/
def settledMsg : Option String → String
  | none => "Unknown error"
  | some m => if m = "" then "Unknown error" else m

/-- `BatchIngestResult`, generic over the input type `ι` and the
per-document `IngestResult` type `ρ`. -/
structure BatchIngestResult (ι ρ : Type) where
  successful : List ρ
  failed : List (ι × String)
deriving DecidableEq, Repr

/-- The `batchResults.forEach` body over one slice of at most 5 inputs:
`ingestDocument` (database + embedding effects) is the oracle `env`. -/
def processBatchPart {ι ρ : Type} (env : ι → Except (Option String) ρ)
    (batch : List ι) (acc : BatchIngestResult ι ρ) : BatchIngestResult ι ρ :=
  batch.foldl
    (fun acc input =>
      match env input with
      | .ok r => { acc with successful := acc.successful ++ [r] }
      | .error e => { acc with failed := acc.failed ++ [(input, settledMsg e)] })
    acc

/-- The `for (let i = 0; i < inputs.length; i += CONCURRENCY)` loop with
`CONCURRENCY = 5`. -/
def ingestBatchGo {ι ρ : Type} (env : ι → Except (Option String) ρ) :
    List ι → BatchIngestResult ι ρ → BatchIngestResult ι ρ
  | [], acc => acc
  | x :: xs, acc =>
    ingestBatchGo env ((x :: xs).drop 5) (processBatchPart env ((x :: xs).take 5) acc)
termination_by l _ => l.length
decreasing_by simp [List.length_drop]; omega

/-- `DocumentProcessor.ingestBatch(inputs)`. -/
def ingestBatch {ι ρ : Type} (env : ι → Except (Option String) ρ)
    (inputs : List ι) : BatchIngestResult ι ρ :=
  ingestBatchGo env inputs ⟨[], []⟩

/-! ## Upload job manager (src/services/upload/job-manager.ts)
The `createdAt`/`updatedAt` timestamps play no role in any claim and are
not modelled; `uuidv4()` ids are passed in by the caller. -/

inductive FileStatus
  | pending | processing | completed | failed
deriving DecidableEq, Repr

inductive JobStatus
  | pending | processing | completed | failed
deriving DecidableEq, Repr

structure FileResult where
  filename : String
  status : FileStatus
  documentId : Option String
  chunksCreated : Option Nat
  totalTokens : Option Nat
  error : Option String
deriving DecidableEq, Repr

/-- `Partial<FileResult>`: `none` fields are absent from the update object. -/
structure FilePatch where
  filename : Option String
  status : Option FileStatus
  documentId : Option String
  chunksCreated : Option Nat
  totalTokens : Option Nat
  error : Option String
deriving DecidableEq, Repr

/-- `Object.assign(file, update)`. -/
def applyPatch (f : FileResult) (p : FilePatch) : FileResult :=
  ⟨p.filename.getD f.filename,
    p.status.getD f.status,
    match p.documentId with | some v => some v | none => f.documentId,
    match p.chunksCreated with | some v => some v | none => f.chunksCreated,
    match p.totalTokens with | some v => some v | none => f.totalTokens,
    match p.error with | some v => some v | none => f.error⟩

structure UploadJob where
  id : String
  language : String
  version : String
  status : JobStatus
  totalFiles : Nat
  processedFiles : Nat
  files : List FileResult
deriving DecidableEq, Repr

/-- The in-memory `jobs` map. -/
def JobStore : Type := String → Option UploadJob

def emptyJobStore : JobStore := fun _ => none

def jobsSet (st : JobStore) (id : String) (j : UploadJob) : JobStore :=
  fun k => if k = id then some j else st k

/-- `f.status === 'completed' || f.status === 'failed'` — the filter of
`updateFileStatus`. -/
def isProcessed (f : FileResult) : Bool :=
  f.status == FileStatus.completed || f.status == FileStatus.failed

/-- `createJob(language, version, filenames)` (the fresh uuid is `id`). -/
def createJob (id language version : String) (filenames : List String) : UploadJob :=
  { id := id, language := language, version := version, status := .pending,
    totalFiles := filenames.length, processedFiles := 0,
    files := filenames.map (fun filename => ⟨filename, .pending, none, none, none, none⟩) }

def createJobOp (st : JobStore) (id language version : String)
    (filenames : List String) : UploadJob × JobStore :=
  let job := createJob id language version filenames
  (job, jobsSet st id job)

def updateJobStatus (st : JobStore) (jobId : String) (status : JobStatus) : JobStore :=
  match st jobId with
  | none => st
  | some j => jobsSet st jobId { j with status := status }

/-- Mutate the first element accepted by `p` (JS `Array.prototype.find`
returns the first match, which is then mutated in place). -/
def updateFirst {α : Type} (p : α → Bool) (g : α → α) : List α → List α
  | [] => []
  | x :: xs => if p x then g x :: xs else x :: updateFirst p g xs

/-- `updateFileStatus(jobId, filename, update)`.  Note the source computes
`job.status = hasFailures ? 'completed' : 'completed'` — both branches are
`'completed'`. -/
def updateFileStatus (st : JobStore) (jobId filename : String)
    (patch : FilePatch) : JobStore :=
  match st jobId with
  | none => st
  | some job =>
    if job.files.any (fun f => f.filename == filename) then
      let files := updateFirst (fun f => f.filename == filename)
        (fun f => applyPatch f patch) job.files
      let processed := (files.filter isProcessed).length
      let status :=
        if processed = job.totalFiles then
          if files.any (fun f => f.status == FileStatus.failed) then JobStatus.completed
          else JobStatus.completed
        else if files.any (fun f => f.status == FileStatus.processing) then
          JobStatus.processing
        else job.status
      jobsSet st jobId
        { job with files := files, processedFiles := processed, status := status }
    else st

structure JobProgress where
  status : JobStatus
  progress : Nat
  completed : Nat
  failed : Nat
  total : Nat
  files : List FileResult
deriving DecidableEq, Repr

/-- `getJobProgress(jobId)`.  `Math.round((p / t) * 100)` = `⌊(p·100 + t/2) / t⌋`
is modelled as exact rational rounding `(200·p + t) / (2·t)`; for
`0 ≤ p ≤ t` the JS double computation yields the same bounded value. -/
def getJobProgress (st : JobStore) (jobId : String) : Option JobProgress :=
  match st jobId with
  | none => none
  | some job =>
    let completed := (job.files.filter (fun f => f.status == FileStatus.completed)).length
    let failed := (job.files.filter (fun f => f.status == FileStatus.failed)).length
    let progress :=
      if 0 < job.totalFiles then (200 * job.processedFiles + job.totalFiles) / (2 * job.totalFiles)
      else 0
    some ⟨job.status, progress, completed, failed, job.totalFiles, job.files⟩

/-- `deleteJob(jobId)`. -/
def deleteJob (st : JobStore) (jobId : String) : JobStore × Bool :=
  (fun k => if k = jobId then none else st k, (st jobId).isSome)

/-- The job invariant of claim C10: the files array length equals
`totalFiles`, and `processedFiles` counts the completed-or-failed files. -/
def JobInv (job : UploadJob) : Prop :=
  job.files.length = job.totalFiles ∧
    job.processedFiles = (job.files.filter isProcessed).length

/-- All jobs in a store satisfy the invariant. -/
def StoreInv (st : JobStore) : Prop :=
  ∀ k j, st k = some j → JobInv j

/-! ## Document generator cache (src/services/generation/generator.ts:
`hashPrompt`, `checkCache`, `saveToCache`, `DocumentGenerator.generate`).
SHA-256 (node:crypto) and the LLM provider are oracles; the `llm_cache`
table is a list of rows whose `prompt_hash` column is UNIQUE in the
schema. -/

structure CacheRow where
  hash : String
  response : String
  model : String
  expiresAt : Int
deriving DecidableEq, Repr

/-- `hashPrompt`: `createHash('sha256').update(prompt).digest('hex')`,
with the digest function abstracted as `sha`. -/
def hashPrompt (sha : String → String) (prompt : String) : String := sha prompt

/-- `checkCache(promptHash)`: select rows with this hash and
`expires_at > now`; `.single()` yields a row only when exactly one
matches, and any error is treated as a miss (`null`). -/
def checkCache (now : Int) (cache : List CacheRow) (h : String) : Option String :=
  match cache.filter (fun r => (r.hash == h) && decide (now < r.expiresAt)) with
  | [r] => some r.response
  | _ => none

/-- `CACHE_EXPIRY_HOURS = 24` as milliseconds (`expiresAt.setHours(+24)`). -/
def cacheExpiryMs : Int := 86400000

/-- `saveToCache`: the `upsert` call passes no `onConflict` option, so
PostgREST resolves conflicts on the `id` primary key; the inserted row
carries a fresh uuid, so that clause never fires.  When a row with the
same `prompt_hash` already exists the insert instead violates the
`prompt_hash UNIQUE` constraint, and the returned error is ignored
(`await` with no error check): the cache row is left unchanged — an
existing entry is never refreshed.  Only when no row with the hash exists
is the new row (24-hour expiry) actually stored. -/
def saveToCache (now : Int) (cache : List CacheRow) (h response model : String) :
    List CacheRow :=
  if cache.any (fun r => r.hash == h) then cache
  else cache ++ [⟨h, response, model, now + cacheExpiryMs⟩]

/-- Result of the cache-relevant tail of `DocumentGenerator.generate`,
instrumented with whether the LLM provider was invoked. -/
structure GenOutcome where
  content : String
  cached : Bool
  llmCalled : Bool
  cache : List CacheRow
deriving DecidableEq, Repr

/-- The tail of `DocumentGenerator.generate` from
`const fullPrompt = `${systemPrompt}\n\n${userPrompt}`` on: hash, cache
lookup, `if (cachedResponse)` (a JS truthiness test, so an empty cached
string is a miss), LLM call and cache save on miss. -/
def generateCore (sha : String → String) (llm : String → String → String)
    (llmName : String) (now : Int) (cache : List CacheRow)
    (systemPrompt userPrompt : String) : GenOutcome :=
  let fullPrompt := systemPrompt ++ "\n\n" ++ userPrompt
  let promptHash := hashPrompt sha fullPrompt
  match checkCache now cache promptHash with
  | some c =>
    if c = "" then
      let content := llm userPrompt systemPrompt
      ⟨content, false, true, saveToCache now cache promptHash content llmName⟩
    else ⟨c, true, false, cache⟩
  | none =>
    let content := llm userPrompt systemPrompt
    ⟨content, false, true, saveToCache now cache promptHash content llmName⟩

/-! ## JavaScript string primitives
JS strings are `List Char`; `slice` clamps negative indices, `trim` strips
the JS whitespace class (modelled over its ASCII members), `lastIndexOf`
returns the greatest match index or `-1`. -/

/-- The ASCII members of the JS `\s` / `trim` whitespace class. -/
def wsChar (c : Char) : Bool :=
  c == ' ' || c == '\t' || c == '\n' || c == '\r' || c == '\x0b' || c == '\x0c'

def jsTrim (s : List Char) : List Char :=
  ((s.dropWhile wsChar).reverse.dropWhile wsChar).reverse

/-- `String.prototype.slice(a, b)` with JS index clamping. -/
def jsSlice (s : List Char) (a b : Int) : List Char :=
  let n : Int := s.length
  let a' := if a < 0 then max (n + a) 0 else min a n
  let b' := if b < 0 then max (n + b) 0 else min b n
  (s.take b'.toNat).drop a'.toNat

/-- Does `pat` occur in `hay` starting at index `i`? -/
def matchesAt (hay pat : List Char) (i : Nat) : Bool :=
  ((hay.drop i).take pat.length) == pat

/-- `String.prototype.lastIndexOf(pat)`. -/
def lastIndexOf (hay pat : List Char) : Int :=
  match ((List.range (hay.length + 1)).filter (matchesAt hay pat)).getLast? with
  | some i => (i : Int)
  | none => -1

/-! ## Code validation (src/services/compiler/validation.ts:
`FORBIDDEN_PATTERNS`, `WARNING_PATTERNS`, `validateCode`, `sanitizeCode`,
`prepareCode`) and the compile route's error mapping.

The validation regexes are built from literals, `\s*`/`\s+`, `\w+`, an
optional character, and `\b`; they are embedded as item lists matched with
full backtracking, which coincides with `RegExp.test` (existence of a
match). -/

/-- JS `\w`: `[A-Za-z0-9_]`. -/
def wordChar (c : Char) : Bool := c.isAlpha || c.isDigit || c == '_'

/-- One element of an embedded validation regex. -/
inductive PatItem
  | lit (s : List Char) (ci : Bool)
  | star (p : Char → Bool)
  | plus (p : Char → Bool)
  | opt (c : Char)
  | wb

/-- Case-insensitive (ASCII) char comparison for `/i` patterns. -/
def charMatches (ci : Bool) (a b : Char) : Bool :=
  if ci then a.toLower == b.toLower else a == b

/-- Does the literal `s` occur at index `i` of `text` (case folding per
`ci`)? -/
def litAt (ci : Bool) (s text : List Char) (i : Nat) : Bool :=
  let seg := (text.drop i).take s.length
  seg.length == s.length && (seg.zip s).all (fun ab => charMatches ci ab.2 ab.1)

/-- Length of the maximal run of `p`-characters at index `i`. -/
def runLen (p : Char → Bool) (text : List Char) (i : Nat) : Nat :=
  ((text.drop i).takeWhile p).length

/-- Backtracking matcher: does the item list match some prefix of `text`
starting exactly at index `i`?  Greedy/lazy choices do not matter for
existence, so each quantifier tries every admissible width. -/
def mtch (text : List Char) : List PatItem → Nat → Bool
  | [], _ => true
  | .lit s ci :: ps, i => litAt ci s text i && mtch text ps (i + s.length)
  | .star p :: ps, i =>
    (List.range (runLen p text i + 1)).any (fun k => mtch text ps (i + k))
  | .plus p :: ps, i =>
    (List.range (runLen p text i)).any (fun k => mtch text ps (i + k + 1))
  | .opt c :: ps, i =>
    (if (text.get? i).any (fun d => d == c) then mtch text ps (i + 1) else false) ||
      mtch text ps i
  | .wb :: ps, i =>
    let prevWord := match i with
      | 0 => false
      | j + 1 => (text.get? j).any wordChar
    let nextWord := (text.get? i).any wordChar
    (prevWord != nextWord) && mtch text ps i

/-- `RegExp.prototype.test`: some starting index matches. -/
def testPat (pat : List PatItem) (text : List Char) : Bool :=
  (List.range (text.length + 1)).any (mtch text pat)

/-- Literal item from a string. -/
def litp (s : String) (ci : Bool) : PatItem := .lit s.data ci

/-- `FORBIDDEN_PATTERNS`, in source order, with their reasons. -/
def forbiddenList : List (List PatItem × String) :=
  [ ([litp "#include" true, .star wsChar, litp "<" true, .star wsChar,
      litp "fstream" true, .star wsChar, litp ">" true],
      "File stream operations are not allowed for security"),
    ([litp "#include" true, .star wsChar, litp "<" true, .star wsChar,
      litp "filesystem" true, .star wsChar, litp ">" true],
      "Filesystem operations are not allowed for security"),
    ([litp "#include" true, .star wsChar, litp "<" true, .star wsChar,
      litp "sys/" true],
      "System headers are not allowed for security"),
    ([litp "#include" true, .star wsChar, litp "<" true, .star wsChar,
      litp "unistd.h" true, .star wsChar, litp ">" true],
      "Unix system calls are not allowed for security"),
    ([litp "#include" true, .star wsChar, litp "<" true, .star wsChar,
      litp "windows.h" true, .star wsChar, litp ">" true],
      "Windows system calls are not allowed for security"),
    ([.wb, litp "system" false, .star wsChar, litp "(" false],
      "system() calls are not allowed for security"),
    ([.wb, litp "exec" false, .opt 'l', .star wsChar, litp "(" false],
      "exec() calls are not allowed for security"),
    ([.wb, litp "execlp" false, .star wsChar, litp "(" false],
      "execlp() calls are not allowed for security"),
    ([.wb, litp "execv" false, .star wsChar, litp "(" false],
      "execv() calls are not allowed for security"),
    ([.wb, litp "execvp" false, .star wsChar, litp "(" false],
      "execvp() calls are not allowed for security"),
    ([.wb, litp "fork" false, .star wsChar, litp "(" false],
      "fork() calls are not allowed for security"),
    ([.wb, litp "popen" false, .star wsChar, litp "(" false],
      "popen() calls are not allowed for security"),
    ([litp "__asm" false, .wb],
      "Inline assembly is not allowed for security"),
    ([.wb, litp "asm" false, .star wsChar, litp "(" false],
      "Assembly blocks are not allowed for security"),
    ([litp "#pragma" true, .plus wsChar, litp "comment" true, .star wsChar,
      litp "(" true, .star wsChar, litp "lib" true],
      "Library pragma directives are not allowed"),
    ([.wb, litp "socket" false, .star wsChar, litp "(" false],
      "Network socket operations are not allowed"),
    ([.wb, litp "connect" false, .star wsChar, litp "(" false],
      "Network connect operations are not allowed"),
    ([.wb, litp "bind" false, .star wsChar, litp "(" false],
      "Network bind operations are not allowed"),
    ([.wb, litp "listen" false, .star wsChar, litp "(" false],
      "Network listen operations are not allowed") ]

/-- `WARNING_PATTERNS`, in source order. -/
def warningList : List (List PatItem × String) :=
  [ ([.wb, litp "goto" false, .wb],
      "Using goto statement - consider using structured control flow"),
    ([.wb, litp "void" false, .star wsChar, litp "*" false, .star wsChar,
      .plus wordChar, .star wsChar, litp "=" false],
      "Using void pointer - consider using typed pointers or templates"),
    ([.wb, litp "malloc" false, .star wsChar, litp "(" false],
      "Using malloc - consider using new or smart pointers in modern C++"),
    ([.wb, litp "free" false, .star wsChar, litp "(" false],
      "Using free - consider using delete or smart pointers in modern C++"),
    ([.wb, litp "NULL" false, .wb],
      "Using NULL - consider using nullptr in modern C++") ]

inductive CompilerErrorCode
  | VALIDATION_FAILED | FORBIDDEN_CODE | RATE_LIMITED | API_ERROR
deriving DecidableEq, Repr

structure CompilerError where
  message : String
  code : CompilerErrorCode
deriving DecidableEq, Repr

structure ValidationResult where
  valid : Bool
  error : Option String
  errorCode : Option CompilerErrorCode
  warnings : List String
deriving DecidableEq, Repr

def maxCodeLength : Nat := 100000

/-- `validateCode(code)`. -/
def validateCode (code : List Char) : ValidationResult :=
  if (jsTrim code).length = 0 then
    ⟨false, some "Code cannot be empty", some .VALIDATION_FAILED, []⟩
  else if maxCodeLength < code.length then
    ⟨false, some "Code exceeds maximum length of 100000 characters",
      some .VALIDATION_FAILED, []⟩
  else
    match forbiddenList.find? (fun pr => testPat pr.1 code) with
    | some pr => ⟨false, some pr.2, some .FORBIDDEN_CODE, []⟩
    | none =>
      ⟨true, none, none,
        warningList.filterMap (fun pr => if testPat pr.1 code then some pr.2 else none)⟩

def shebangReplacement : List Char := "// [removed shebang]".data

/-- `code.replace(/^#!.*$/gm, '// [removed shebang]')`: every line (after a
JS line terminator or at the start) beginning `#!` is replaced up to the
line end; terminators themselves are kept.  Each step consumes at least one
character, so fuel equal to the string length makes the `0` case dead; the
fuel keeps the recursion structural. -/
def sanitizeShebangGo : Nat → List Char → Bool → List Char
  | 0, _, _ => []
  | fuel + 1, s, atStart =>
    match s with
    | [] => []
    | c :: rest =>
      if atStart && c == '#' && rest.head? == some '!' then
        shebangReplacement ++
          sanitizeShebangGo fuel (rest.dropWhile (fun d => !(d == '\n' || d == '\r'))) false
      else
        c :: sanitizeShebangGo fuel rest (c == '\n' || c == '\r')

def sanitizeShebang (s : List Char) : List Char := sanitizeShebangGo s.length s true

/-- `.replace(/\r\n/g, '\n').replace(/\r/g, '\n')`. -/
def normalizeCRLF : List Char → List Char
  | [] => []
  | '\r' :: '\n' :: rest => '\n' :: normalizeCRLF rest
  | '\r' :: rest => '\n' :: normalizeCRLF rest
  | c :: rest => c :: normalizeCRLF rest

/-- `sanitizeCode(code)`. -/
def sanitizeCode (code : List Char) : List Char :=
  normalizeCRLF (sanitizeShebang code)

/-- `prepareCode(code)`: sanitize, validate, throw `CompilerError` on
failure. -/
def prepareCode (code : List Char) : Except CompilerError (List Char × List String) :=
  let sanitized := sanitizeCode code
  let validation := validateCode sanitized
  if validation.valid then .ok (sanitized, validation.warnings)
  else .error ⟨validation.error.getD "Validation failed",
    validation.errorCode.getD .VALIDATION_FAILED⟩

/-- The `CompilerError` → HTTP status mapping of the compile route's catch
block. -/
def compileErrorStatus (c : CompilerErrorCode) : Nat :=
  match c with
  | .RATE_LIMITED => 429
  | .FORBIDDEN_CODE => 400
  | .VALIDATION_FAILED => 400
  | .API_ERROR => 500

/-! ## Text chunker (src/services/rag/chunker.ts: `chunkText`).
`1 token ≈ 4 characters`; defaults are 500 max tokens and 50 overlap
tokens.  The `while` loop carries an explicit fuel; `none` means the loop
did not finish within that many iterations. -/

structure ChunkingOptions where
  maxTokens : Option Nat := none
  overlapTokens : Option Nat := none
deriving DecidableEq, Repr

/-- The `endIndex` computation of one loop iteration: `startIndex +
maxChars`, pulled back to the latest paragraph / sentence / word break in
the final 200-character search window when the end is not at the text
end. -/
def computeEnd (text : List Char) (maxChars : Nat) (start : Int) : Int :=
  let len : Int := text.length
  let end0 := start + maxChars
  if end0 < len then
    let searchStart := max (start + maxChars - 200) start
    let searchText := jsSlice text searchStart end0
    let pBreak := lastIndexOf searchText ['\n', '\n']
    if pBreak ≠ -1 then searchStart + pBreak + 2
    else
      let sBreak :=
        max (max (lastIndexOf searchText ['.', ' ']) (lastIndexOf searchText ['.', '\n']))
          (max (lastIndexOf searchText ['?', ' ']) (lastIndexOf searchText ['!', ' ']))
      if sBreak ≠ -1 then searchStart + sBreak + 2
      else
        let wBreak := lastIndexOf searchText [' ']
        if wBreak ≠ -1 then searchStart + wBreak + 1
        else end0
  else end0

/-- `startIndex = endIndex - overlapChars`: the next loop start. -/
def nextStart (text : List Char) (maxChars overlapChars : Nat) (start : Int) : Int :=
  computeEnd text maxChars start - overlapChars

/-- The `while (startIndex < text.length)` loop of `chunkText`. -/
def chunkLoop (text : List Char) (maxChars overlapChars : Nat) :
    Nat → Int → List (List Char) → Option (List (List Char))
  | 0, start, chunks =>
    if start < (text.length : Int) then none else some chunks
  | fuel + 1, start, chunks =>
    if start < (text.length : Int) then
      chunkLoop text maxChars overlapChars fuel
        (nextStart text maxChars overlapChars start)
        (chunks ++ [jsTrim (jsSlice text start (computeEnd text maxChars start))])
    else some chunks

/-- `chunkText(text, options)`. -/
def chunkText (fuel : Nat) (text : List Char) (opts : ChunkingOptions) :
    Option (List (List Char)) :=
  let maxChars := opts.maxTokens.getD 500 * 4
  let overlapChars := opts.overlapTokens.getD 50 * 4
  if text.length ≤ maxChars then some [text]
  else (chunkLoop text maxChars overlapChars fuel 0 []).map
    (fun chunks => chunks.filter (fun c => 0 < c.length))

/-- `estimateTokenCount`: `Math.ceil(text.length / 4)`. -/
def estimateTokenCount (text : List Char) : Nat := (text.length + 3) / 4

/-! ## Compiler output parser (src/services/compiler/judge0.ts:
`parseCompilerOutput`).

The GCC-diagnostic regex
`/(?:[\w./]+):(\d+):(\d+):\s*(warning|error):\s*(.+?)(?=\n|$)/gi`
is embedded as a deterministic scanner.  For this pattern backtracking is
fully determined: each greedy run (`[\w./]+`, `\d+`, `\s*` before the
keyword) is followed by a character outside its class (`:` or a letter),
so it must be maximal; the alternatives `warning`/`error` start with
different letters; the lazy `(.+?)` with lookahead `(?=\n|$)` runs from
the first non-whitespace character after the colon to the end of that
line, except when only whitespace follows the colon, where the engine
backtracks `\s*` to the last non-newline character.  `exec` with the `g`
flag yields leftmost non-overlapping matches. -/

end Shuguri

namespace Shuguri

open CppVersionId

/-! ## Lemmas about the diff merger -/

theorem foldl_catAppend_join {α : Type} (cats : List (DiffCategory α)) (acc : DiffCategory α) :
    cats.foldl catAppend acc =
      ⟨acc.newFeatures ++ (cats.map DiffCategory.newFeatures).flatten,
        acc.behaviorChanges ++ (cats.map DiffCategory.behaviorChanges).flatten,
        acc.deprecated ++ (cats.map DiffCategory.deprecated).flatten,
        acc.removed ++ (cats.map DiffCategory.removed).flatten,
        acc.libraryChanges ++ (cats.map DiffCategory.libraryChanges).flatten⟩ := by
  induction cats generalizing acc with
  | nil => cases acc; simp
  | cons c cs ih =>
    cases acc
    simp [List.foldl_cons, ih, catAppend]

theorem mergeDiffCategories_eq_join {α : Type} (cats : List (DiffCategory α)) :
    mergeDiffCategories cats =
      ⟨(cats.map DiffCategory.newFeatures).flatten,
        (cats.map DiffCategory.behaviorChanges).flatten,
        (cats.map DiffCategory.deprecated).flatten,
        (cats.map DiffCategory.removed).flatten,
        (cats.map DiffCategory.libraryChanges).flatten⟩ := by
  simp [mergeDiffCategories, foldl_catAppend_join, emptyCategory]

/-- C1 (amended).  When the request carries no category filter (absent or
empty), the diff returned by `analyzeDiff` is, category by category, the
concatenation in upgrade-path order of the per-step arrays loaded for the
consecutive version pairs of the hardcoded upgrade path. -/
theorem analyzeDiff_concat_of_no_filter {α : Type} (env : DiffEnv α)
    (req : DiffAnalysisRequest)
    (hfilt : req.categories = none ∨ req.categories = some [])
    (hpath : getUpgradePath req.sourceVersion req.targetVersion ≠ []) :
    ∃ res, analyzeDiff env req = .ok res ∧
      res.diff.newFeatures =
        ((loadedCategories env (getUpgradePath req.sourceVersion req.targetVersion)).map
          DiffCategory.newFeatures).flatten ∧
      res.diff.behaviorChanges =
        ((loadedCategories env (getUpgradePath req.sourceVersion req.targetVersion)).map
          DiffCategory.behaviorChanges).flatten ∧
      res.diff.deprecated =
        ((loadedCategories env (getUpgradePath req.sourceVersion req.targetVersion)).map
          DiffCategory.deprecated).flatten ∧
      res.diff.removed =
        ((loadedCategories env (getUpgradePath req.sourceVersion req.targetVersion)).map
          DiffCategory.removed).flatten ∧
      res.diff.libraryChanges =
        ((loadedCategories env (getUpgradePath req.sourceVersion req.targetVersion)).map
          DiffCategory.libraryChanges).flatten := by
  have hfc : filterCategories
      (mergeDiffCategories (loadedCategories env
        (getUpgradePath req.sourceVersion req.targetVersion))) req.categories =
      mergeDiffCategories (loadedCategories env
        (getUpgradePath req.sourceVersion req.targetVersion)) := by
    rcases hfilt with h | h <;> simp [h, filterCategories]
  refine ⟨⟨req.sourceVersion, req.targetVersion,
      mergeDiffCategories (loadedCategories env
        (getUpgradePath req.sourceVersion req.targetVersion)),
      categoryTotal (mergeDiffCategories (loadedCategories env
        (getUpgradePath req.sourceVersion req.targetVersion)))⟩, ?_, ?_, ?_, ?_, ?_, ?_⟩
  · simp only [analyzeDiff, loadedCategories] at hfc ⊢
    rw [if_neg hpath, hfc]
  all_goals simp [mergeDiffCategories_eq_join, loadedCategories]

/-- Witness for `analyzeDiff_concat_of_no_filter` at a concrete unfiltered
request from C++11 to C++17. -/
theorem analyzeDiff_concat_of_no_filter_witness :
    ∃ res, analyzeDiff diffEnvCex ⟨cpp11, cpp17, none⟩ = .ok res ∧
      res.diff.newFeatures =
        ((loadedCategories diffEnvCex (getUpgradePath cpp11 cpp17)).map
          DiffCategory.newFeatures).flatten ∧
      res.diff.behaviorChanges =
        ((loadedCategories diffEnvCex (getUpgradePath cpp11 cpp17)).map
          DiffCategory.behaviorChanges).flatten ∧
      res.diff.deprecated =
        ((loadedCategories diffEnvCex (getUpgradePath cpp11 cpp17)).map
          DiffCategory.deprecated).flatten ∧
      res.diff.removed =
        ((loadedCategories diffEnvCex (getUpgradePath cpp11 cpp17)).map
          DiffCategory.removed).flatten ∧
      res.diff.libraryChanges =
        ((loadedCategories diffEnvCex (getUpgradePath cpp11 cpp17)).map
          DiffCategory.libraryChanges).flatten := by
  have hp : getUpgradePath cpp11 cpp17 ≠ [] := by decide
  exact analyzeDiff_concat_of_no_filter diffEnvCex ⟨cpp11, cpp17, none⟩ (Or.inl rfl) hp

/-- C1 (counterexample).  With a non-empty category filter on the request,
the returned `behaviorChanges` array is empty even though the concatenation
of the loaded per-step `behaviorChanges` arrays is `[7]`: the claim as
stated fails for filtered requests. -/
theorem analyzeDiff_filter_cex :
    (analyzeDiff diffEnvCex diffReqCex).toOption.map (fun r => r.diff.behaviorChanges) =
        some [] ∧
      ((loadedCategories diffEnvCex (getUpgradePath cpp11 cpp14)).map
        DiffCategory.behaviorChanges).flatten = [7] := by
  decide

theorem getUpgradePath_empty_iff :
    ∀ s t : CppVersionId, getUpgradePath s t = [] ↔
      (¬ vIndex s < vIndex t ∨ ∀ p ∈ versionPairs, p.1 ≠ s) := by
  decide

/-- C5.  `analyzeDiff` fails exactly when the hardcoded upgrade path is
empty; the path is empty exactly when the source does not strictly precede
the target in `versionOrder` or no hardcoded pair starts at the source; and
the POST /api/diff handler answers 400 without invoking `analyzeDiff` on an
invalid body or a non-increasing version pair, and maps `analyzeDiff`
errors to 500. -/
theorem analyzeDiff_error_iff_empty_path {α : Type} (env : DiffEnv α)
    (req : DiffAnalysisRequest) :
    (exceptIsError (analyzeDiff env req) = true ↔
      getUpgradePath req.sourceVersion req.targetVersion = []) ∧
    (getUpgradePath req.sourceVersion req.targetVersion = [] ↔
      (¬ vIndex req.sourceVersion < vIndex req.targetVersion ∨
        ∀ p ∈ versionPairs, p.1 ≠ req.sourceVersion)) ∧
    diffPost env (DiffBody.invalid : DiffBody) = ⟨400, false⟩ ∧
    (vIndex req.targetVersion ≤ vIndex req.sourceVersion →
      diffPost env (.valid req) = ⟨400, false⟩) ∧
    (vIndex req.sourceVersion < vIndex req.targetVersion →
      (exceptIsError (analyzeDiff env req) = true →
        diffPost env (.valid req) = ⟨500, true⟩) ∧
      (exceptIsError (analyzeDiff env req) = false →
        diffPost env (.valid req) = ⟨200, true⟩)) := by
  refine ⟨?_, ?_, rfl, ?_, ?_⟩
  · by_cases h : getUpgradePath req.sourceVersion req.targetVersion = [] <;>
      simp [analyzeDiff, h, exceptIsError]
  · have h := fun s t => getUpgradePath_empty_iff s t
    exact h req.sourceVersion req.targetVersion
  · intro h
    simp [diffPost, if_pos h]
  · intro h
    have hlt : ¬ vIndex req.targetVersion ≤ vIndex req.sourceVersion := by omega
    constructor <;> intro herr <;>
      rcases hok : analyzeDiff env req with e | r <;>
        simp_all [diffPost, if_neg hlt, exceptIsError]

/-- Witness for `analyzeDiff_error_iff_empty_path`: from C++17 to C++20 no
hardcoded pair starts at the source, so the analyzer errors and the route
answers 500. -/
theorem analyzeDiff_error_iff_empty_path_witness :
    exceptIsError (analyzeDiff diffEnvCex ⟨cpp17, cpp20, none⟩) = true ∧
      diffPost diffEnvCex (.valid ⟨cpp17, cpp20, none⟩) = ⟨500, true⟩ := by
  have h := analyzeDiff_error_iff_empty_path diffEnvCex (⟨cpp17, cpp20, none⟩ : DiffAnalysisRequest)
  have hnp : ∀ p ∈ versionPairs, p.1 ≠ cpp17 := by decide
  have hlt : vIndex cpp17 < vIndex cpp20 := by decide
  have herr : exceptIsError (analyzeDiff diffEnvCex ⟨cpp17, cpp20, none⟩) = true := by
    refine (h.1).2 ?_
    exact (h.2.1).2 (Or.inr hnp)
  exact ⟨herr, ((h.2.2.2.2 hlt).1 herr)⟩

/-! ## Rate limiter -/

theorem rlRun_counting (ip : String) (R : Int) :
    ∀ (ts : List Int) (st : RateState) (k : Nat), 1 ≤ k →
      st ip = some ⟨min k rateMax, R⟩ → (∀ t ∈ ts, t < R) →
      (rlRun ip ts st).1 =
        (List.range ts.length).map (fun i => decide (i < rateMax - k)) := by
  intro ts
  induction ts with
  | nil => intro st k hk hst hts; simp [rlRun]
  | cons t ts ih =>
    intro st k hk hst hts
    have ht : t < R := hts t (List.mem_cons_self _ _)
    have hts' : ∀ u ∈ ts, u < R := fun u hu => hts u (List.mem_cons_of_mem _ hu)
    have hnr : ¬ (R < t) := by omega
    by_cases hk10 : rateMax ≤ k
    · have hmin : min k rateMax = rateMax := min_eq_right hk10
      have hstep : checkRateLimit t ip st = (false, st) := by
        simp [checkRateLimit, hst, hnr, hmin, le_refl]
      have hrec := ih st (k + 1) (by omega) (by rw [hst, hmin, min_eq_right (by omega)]) hts'
      simp only [rlRun, hstep, hrec, List.length_cons, List.range_succ_eq_map,
        List.map_cons, List.map_map]
      congr 1
      · simp [Nat.sub_eq_zero_of_le hk10]
      · refine List.map_congr_left fun i _ => ?_
        simp only [Function.comp]
        exact decide_eq_decide.mpr (by omega)
    · have hklt : k < rateMax := by omega
      have hmin : min k rateMax = k := min_eq_left (by omega)
      have hstep : checkRateLimit t ip st =
          (true, rateSet st ip ⟨k + 1, R⟩) := by
        simp [checkRateLimit, hst, hnr, hmin, Nat.not_le.mpr hklt]
      have hst' : rateSet st ip ⟨k + 1, R⟩ ip = some ⟨min (k + 1) rateMax, R⟩ := by
        simp [rateSet, min_eq_left (by omega : k + 1 ≤ rateMax)]
      have hrec := ih (rateSet st ip ⟨k + 1, R⟩) (k + 1) (by omega) hst' hts'
      simp only [rlRun, hstep, hrec, List.length_cons, List.range_succ_eq_map,
        List.map_cons, List.map_map]
      congr 1
      · exact (decide_eq_true (by omega : 0 < rateMax - k)).symm
      · refine List.map_congr_left fun i _ => ?_
        simp only [Function.comp]
        exact decide_eq_decide.mpr (by omega)

/-- C4 (amended).  For a fresh IP, a window opens at the first call with
`resetAt` one minute later; among calls whose times lie strictly before
`resetAt` exactly the first 10 return `true` and all later ones `false`;
the first call strictly after `resetAt` starts a fresh window with count 1
and returns `true` (a call exactly at `resetAt` still belongs to the old
window); and the compile routes answer 429 exactly when `checkRateLimit`
returns `false`. -/
theorem checkRateLimit_spec :
    (∀ ip t0 (ts : List Int) (st : RateState), st ip = none →
        (∀ t ∈ ts, t < t0 + rateWindow) →
        (rlRun ip (t0 :: ts) st).1 =
          (List.range (ts.length + 1)).map (fun i => decide (i < rateMax))) ∧
    (∀ (st : RateState) ip now r, st ip = some r → r.resetAt < now →
        (checkRateLimit now ip st).1 = true ∧
        (checkRateLimit now ip st).2 ip = some ⟨1, now + rateWindow⟩) ∧
    (∀ now ip (st : RateState),
        (compileRateCheck now ip st).1 = some 429 ↔
          (checkRateLimit now ip st).1 = false) := by
  refine ⟨?_, ?_, ?_⟩
  · intro ip t0 ts st h0 hts
    have hstep : checkRateLimit t0 ip st =
        (true, rateSet st ip ⟨1, t0 + rateWindow⟩) := by
      simp [checkRateLimit, h0]
    have hst' : rateSet st ip ⟨1, t0 + rateWindow⟩ ip =
        some ⟨min 1 rateMax, t0 + rateWindow⟩ := by
      simp [rateSet, min_eq_left (by simp [rateMax] : 1 ≤ rateMax)]
    have hrec := rlRun_counting ip (t0 + rateWindow) ts
      (rateSet st ip ⟨1, t0 + rateWindow⟩) 1 le_rfl hst' hts
    simp only [rlRun, hstep, hrec, List.range_succ_eq_map, List.map_cons,
      List.map_map]
    congr 1
    refine List.map_congr_left fun i _ => ?_
    simp only [Function.comp]
    exact decide_eq_decide.mpr (by omega)
  · intro st ip now r hst hlt
    constructor <;> simp [checkRateLimit, hst, hlt, rateSet]
  · intro now ip st
    rcases h : (checkRateLimit now ip st).1 <;> simp [compileRateCheck, h]

/-- Witness for `checkRateLimit_spec`: 12 calls at time 0 from a fresh
state give 10 accepts then 2 rejects. -/
theorem checkRateLimit_spec_witness :
    (rlRun "9.9.9.9" (0 :: List.replicate 11 0) emptyRateState).1 =
      (List.range 12).map (fun i => decide (i < rateMax)) := by
  have hts : ∀ t ∈ List.replicate 11 (0 : Int), t < 0 + rateWindow := by decide
  exact checkRateLimit_spec.1 "9.9.9.9" 0 (List.replicate 11 0) emptyRateState rfl hts

/-- C4 (counterexample).  After 10 calls at time 0 the window's `resetAt`
is 60000; the claim says the first call at or after `resetAt` starts a
fresh window and returns `true`, but a call exactly at time 60000 is
rejected: the reset test is strict (`record.resetAt < now`). -/
theorem checkRateLimit_boundary_cex :
    (rlRun "a" (List.replicate 10 0) emptyRateState).2 "a" = some ⟨10, 60000⟩ ∧
      (checkRateLimit 60000 "a"
        (rlRun "a" (List.replicate 10 0) emptyRateState).2).1 = false := by
  decide

/-! ## Batch ingestion -/

theorem processBatchPart_eq {ι ρ : Type} (env : ι → Except (Option String) ρ)
    (batch : List ι) (acc : BatchIngestResult ι ρ) :
    processBatchPart env batch acc =
      ⟨acc.successful ++ batch.filterMap (fun i => (env i).toOption),
        acc.failed ++ batch.filterMap (fun i =>
          match env i with
          | .error e => some (i, settledMsg e)
          | .ok _ => none)⟩ := by
  induction batch generalizing acc with
  | nil => cases acc; simp [processBatchPart]
  | cons x xs ih =>
    obtain ⟨s, f⟩ := acc
    rcases hx : env x with e | r
    · have h2 := ih ⟨s, f ++ [(x, settledMsg e)]⟩
      simp only [processBatchPart, List.foldl_cons, hx] at h2 ⊢
      rw [h2]
      simp [hx, Except.toOption, List.filterMap_cons, List.append_assoc]
    · have h2 := ih ⟨s ++ [r], f⟩
      simp only [processBatchPart, List.foldl_cons, hx] at h2 ⊢
      rw [h2]
      simp [hx, Except.toOption, List.filterMap_cons, List.append_assoc]

theorem ingestBatchGo_eq {ι ρ : Type} (env : ι → Except (Option String) ρ) :
    ∀ (l : List ι) (acc : BatchIngestResult ι ρ),
      ingestBatchGo env l acc =
        ⟨acc.successful ++ l.filterMap (fun i => (env i).toOption),
          acc.failed ++ l.filterMap (fun i =>
            match env i with
            | .error e => some (i, settledMsg e)
            | .ok _ => none)⟩ := by
  have H : ∀ (n : Nat) (l : List ι), l.length ≤ n → ∀ acc : BatchIngestResult ι ρ,
      ingestBatchGo env l acc =
        ⟨acc.successful ++ l.filterMap (fun i => (env i).toOption),
          acc.failed ++ l.filterMap (fun i =>
            match env i with
            | .error e => some (i, settledMsg e)
            | .ok _ => none)⟩ := by
    intro n
    induction n with
    | zero =>
      intro l hl acc
      have : l = [] := List.length_eq_zero.mp (Nat.le_zero.mp hl)
      subst this
      cases acc
      simp [ingestBatchGo]
    | succ n ih =>
      intro l hl acc
      cases l with
      | nil => cases acc; simp [ingestBatchGo]
      | cons x xs =>
        rw [ingestBatchGo, processBatchPart_eq,
          ih ((x :: xs).drop 5) (by simp [List.length_drop] at hl ⊢; omega)]
        cases acc
        simp only [List.append_assoc, ← List.filterMap_append,
          List.take_append_drop]
  intro l acc
  exact H l.length l le_rfl acc

/-- C8.  `ingestBatch` routes every input document to exactly one of the
`successful` / `failed` lists — `successful` collects, in order, the results
of the inputs whose ingestion succeeds and `failed` the inputs whose
ingestion fails with the reported message — so the two lengths always sum
to the number of inputs, and one document's failure never prevents the
remaining documents from being processed. -/
theorem ingestBatch_partition {ι ρ : Type} (env : ι → Except (Option String) ρ)
    (inputs : List ι) :
    (ingestBatch env inputs).successful =
        inputs.filterMap (fun i => (env i).toOption) ∧
      (ingestBatch env inputs).failed =
        inputs.filterMap (fun i =>
          match env i with
          | .error e => some (i, settledMsg e)
          | .ok _ => none) ∧
      (ingestBatch env inputs).successful.length +
          (ingestBatch env inputs).failed.length = inputs.length := by
  have h := ingestBatchGo_eq env inputs ⟨[], []⟩
  refine ⟨by simp [ingestBatch, h], by simp [ingestBatch, h], ?_⟩
  simp only [ingestBatch, h, List.nil_append]
  clear h
  induction inputs with
  | nil => simp
  | cons x xs ih =>
    rcases hx : env x with e | r <;>
      simp [hx, Except.toOption, List.filterMap_cons, List.length_cons] at ih ⊢ <;>
        omega

/-! ## Upload job manager -/

theorem updateFirst_length {α : Type} (p : α → Bool) (g : α → α) (l : List α) :
    (updateFirst p g l).length = l.length := by
  induction l with
  | nil => rfl
  | cons x xs ih =>
    by_cases hx : p x <;> simp [updateFirst, hx, ih]

theorem storeInv_empty : StoreInv emptyJobStore := by
  intro k j h
  simp [emptyJobStore] at h

/-- C10.  The job-manager operations preserve the invariant that the files
array length equals `totalFiles` and `processedFiles` counts the
completed-or-failed files; `getJobProgress` reports a progress of at most
100 (and 0 when `totalFiles` is 0; the value is a `Nat`, hence ≥ 0); and
once the new processed count reaches `totalFiles`, `updateFileStatus` sets
the job status to `completed` even when some files failed — it never sets a
job's status to `failed`. -/
theorem jobManager_invariants :
    (∀ id language version filenames, JobInv (createJob id language version filenames)) ∧
    (∀ st id language version filenames, StoreInv st →
      StoreInv (createJobOp st id language version filenames).2) ∧
    (∀ st jobId status, StoreInv st → StoreInv (updateJobStatus st jobId status)) ∧
    (∀ st jobId filename patch, StoreInv st →
      StoreInv (updateFileStatus st jobId filename patch)) ∧
    (∀ st jobId pr, StoreInv st → getJobProgress st jobId = some pr →
      pr.progress ≤ 100 ∧ (pr.total = 0 → pr.progress = 0)) ∧
    (∀ st jobId filename patch job j,
      st jobId = some job →
      updateFileStatus st jobId filename patch jobId = some j →
      ((job.files.any (fun f => f.filename == filename)) = true →
        j.processedFiles = j.totalFiles → j.status = JobStatus.completed) ∧
      (j.status = JobStatus.failed → job.status = JobStatus.failed)) := by
  have hcreate : ∀ id language version (filenames : List String),
      JobInv (createJob id language version filenames) := by
    intro id language version filenames
    constructor
    · simp [createJob]
    · simp [createJob, List.filter_map, isProcessed]
      induction filenames with
      | nil => simp
      | cons a as ih => simpa [List.filter_cons, isProcessed] using ih
  refine ⟨hcreate, ?_, ?_, ?_, ?_, ?_⟩
  · intro st id language version filenames hst k j hk
    simp only [createJobOp, jobsSet] at hk
    split at hk
    · cases hk; exact hcreate id language version filenames
    · exact hst k j hk
  · intro st jobId status hst k j hk
    rcases hj : st jobId with _ | job
    · simp only [updateJobStatus, hj] at hk
      exact hst k j hk
    · simp only [updateJobStatus, hj] at hk
      simp only [jobsSet] at hk
      split at hk
      · cases hk
        have := hst jobId job hj
        exact ⟨this.1, this.2⟩
      · exact hst k j hk
  · intro st jobId filename patch hst k j hk
    rcases hj : st jobId with _ | job
    · simp only [updateFileStatus, hj] at hk
      exact hst k j hk
    · simp only [updateFileStatus, hj] at hk
      by_cases hfound : (job.files.any (fun f => f.filename == filename)) = true
      · rw [if_pos hfound] at hk
        simp only [jobsSet] at hk
        split at hk
        · cases hk
          refine ⟨?_, rfl⟩
          have := (hst jobId job hj).1
          simpa [updateFirst_length] using this
        · exact hst k j hk
      · rw [if_neg hfound] at hk
        exact hst k j hk
  · intro st jobId pr hst hpr
    rcases hj : st jobId with _ | job
    · simp only [getJobProgress, hj] at hpr
      cases hpr
    · simp only [getJobProgress, hj] at hpr
      obtain ⟨hlen, hcount⟩ := hst jobId job hj
      have hple : job.processedFiles ≤ job.totalFiles := by
        rw [hcount, ← hlen]
        exact List.length_filter_le _ _
      cases hpr
      by_cases ht : 0 < job.totalFiles
      · constructor
        · simp only [if_pos ht]
          have h101 : (200 * job.processedFiles + job.totalFiles) / (2 * job.totalFiles) < 101 := by
            rw [Nat.div_lt_iff_lt_mul (by omega : 0 < 2 * job.totalFiles)]
            omega
          omega
        · intro h0
          simp at h0
          omega
      · simp [if_neg ht]
  · intro st jobId filename patch job j hj hk
    simp only [updateFileStatus, hj] at hk
    by_cases hfound : (job.files.any (fun f => f.filename == filename)) = true
    · rw [if_pos hfound] at hk
      simp only [jobsSet, if_pos rfl] at hk
      cases hk
      constructor
      · intro _ hdone
        simp only at hdone ⊢
        rw [if_pos hdone]
        split <;> rfl
      · intro hfail
        simp only at hfail
        split at hfail
        · split at hfail <;> cases hfail
        · split at hfail
          · cases hfail
          · exact hfail
    · rw [if_neg hfound] at hk
      rw [hj] at hk
      cases hk
      exact ⟨fun hf _ => absurd hf hfound, id⟩

/-! ## Document generator cache -/

/-- With pairwise-distinct `prompt_hash` values (the schema's UNIQUE
constraint), the cache lookup filter returns exactly the live matching
row. -/
theorem cache_filter_unique (now : Int) (h : String) :
    ∀ (cache : List CacheRow), (cache.map CacheRow.hash).Nodup →
      ∀ r ∈ cache, r.hash = h → now < r.expiresAt →
        cache.filter (fun r => (r.hash == h) && decide (now < r.expiresAt)) = [r] := by
  intro cache
  induction cache with
  | nil => intro _ r hr; cases hr
  | cons x xs ih =>
    intro hnd r hr hh hexp
    have hx : x.hash ∉ xs.map CacheRow.hash := by
      rw [List.map_cons] at hnd
      exact (List.nodup_cons.mp hnd).1
    have hnd' : (xs.map CacheRow.hash).Nodup := by
      rw [List.map_cons] at hnd
      exact (List.nodup_cons.mp hnd).2
    rcases List.mem_cons.mp hr with rfl | hrx
    · have hpred : ((r.hash == h) && decide (now < r.expiresAt)) = true := by
        simp [hh, hexp]
      have hrest : xs.filter (fun r => (r.hash == h) && decide (now < r.expiresAt)) = [] := by
        apply List.filter_eq_nil_iff.mpr
        intro y hy
        have hyh : y.hash ≠ h := by
          intro hcontra
          exact hx (hh ▸ hcontra ▸ List.mem_map_of_mem CacheRow.hash hy)
        simp [hyh]
      rw [List.filter_cons, if_pos hpred, hrest]
    · have hxh : x.hash ≠ h := by
        intro hcontra
        exact hx (hcontra ▸ hh ▸ List.mem_map_of_mem CacheRow.hash hrx)
      have hpred : ((x.hash == h) && decide (now < x.expiresAt)) = false := by
        simp [hxh]
      rw [List.filter_cons, if_neg (by simp [hpred])]
      exact ih hnd' r hrx hh hexp

/-- C3 (amended).  `generate` keys the cache by `sha256(system ++ "\n\n" ++
user)`; a cache row with that hash, a *non-empty* response and an expiry
strictly in the future is returned with `cached = true` and no LLM call;
otherwise the LLM is called and `cached = false`, and the cache write
stores the response with a 24-hour expiry only when no row with that hash
exists — a pre-existing row for the hash (e.g. an expired one) is left
unchanged, since the conflicting insert's error is ignored; the lookup
never returns an expired row. -/
theorem generate_cache_spec (sha : String → String) (llm : String → String → String)
    (llmName : String) (now : Int) (cache : List CacheRow) (sp up : String)
    (hnd : (cache.map CacheRow.hash).Nodup) :
    (∀ r ∈ cache, r.hash = sha (sp ++ "\n\n" ++ up) → now < r.expiresAt →
        r.response ≠ "" →
        generateCore sha llm llmName now cache sp up = ⟨r.response, true, false, cache⟩) ∧
    ((∀ r ∈ cache, r.hash = sha (sp ++ "\n\n" ++ up) → now < r.expiresAt →
        r.response = "") →
        generateCore sha llm llmName now cache sp up =
          ⟨llm up sp, false, true,
            saveToCache now cache (sha (sp ++ "\n\n" ++ up)) (llm up sp) llmName⟩) ∧
    ((cache.any (fun r => r.hash == sha (sp ++ "\n\n" ++ up)) = false →
        ⟨sha (sp ++ "\n\n" ++ up), llm up sp, llmName, now + cacheExpiryMs⟩ ∈
          saveToCache now cache (sha (sp ++ "\n\n" ++ up)) (llm up sp) llmName) ∧
      (cache.any (fun r => r.hash == sha (sp ++ "\n\n" ++ up)) = true →
        saveToCache now cache (sha (sp ++ "\n\n" ++ up)) (llm up sp) llmName = cache)) ∧
    (∀ resp, checkCache now cache (sha (sp ++ "\n\n" ++ up)) = some resp →
        ∃ row ∈ cache, row.hash = sha (sp ++ "\n\n" ++ up) ∧ now < row.expiresAt ∧
          row.response = resp) := by
  refine ⟨?_, ?_, ?_, ?_⟩
  · intro r hr hh hexp hne
    have hfil := cache_filter_unique now (sha (sp ++ "\n\n" ++ up)) cache hnd r hr hh hexp
    simp [generateCore, hashPrompt, checkCache, hfil, hne]
  · intro hmiss
    rcases hfil : cache.filter
        (fun r => (r.hash == sha (sp ++ "\n\n" ++ up)) && decide (now < r.expiresAt)) with
      _ | ⟨a, rest⟩
    · simp only [generateCore, hashPrompt, checkCache, hfil]
    · have haf : a ∈ cache.filter
          (fun r => (r.hash == sha (sp ++ "\n\n" ++ up)) && decide (now < r.expiresAt)) := by
        rw [hfil]; exact List.mem_cons_self a rest
      have hain := List.mem_of_mem_filter haf
      have hap := List.of_mem_filter haf
      have hah : a.hash = sha (sp ++ "\n\n" ++ up) := by
        have := (Bool.and_eq_true _ _).mp hap
        exact beq_iff_eq.mp this.1
      have haexp : now < a.expiresAt := by
        have := (Bool.and_eq_true _ _).mp hap
        exact of_decide_eq_true this.2
      have h1 := cache_filter_unique now (sha (sp ++ "\n\n" ++ up)) cache hnd a hain hah haexp
      rw [hfil] at h1
      have hrest : rest = [] := by
        cases h1
        rfl
      have haresp : a.response = "" := hmiss a hain hah haexp
      subst hrest
      simp [generateCore, hashPrompt, checkCache, hfil, haresp]
  · constructor
    · intro hany
      rw [saveToCache, if_neg (by simp [hany])]
      simp
    · intro hany
      rw [saveToCache, if_pos hany]
  · intro resp hresp
    rcases hfil : cache.filter
        (fun r => (r.hash == sha (sp ++ "\n\n" ++ up)) && decide (now < r.expiresAt)) with
      _ | ⟨a, rest⟩
    · rw [checkCache, hfil] at hresp
      cases hresp
    · cases rest with
      | cons b bs =>
        rw [checkCache, hfil] at hresp
        cases hresp
      | nil =>
        rw [checkCache, hfil] at hresp
        have haf : a ∈ cache.filter
            (fun r => (r.hash == sha (sp ++ "\n\n" ++ up)) && decide (now < r.expiresAt)) := by
          rw [hfil]; exact List.mem_cons_self a []
        have hain := List.mem_of_mem_filter haf
        have hap := List.of_mem_filter haf
        have hpair := (Bool.and_eq_true _ _).mp hap
        refine ⟨a, hain, beq_iff_eq.mp hpair.1, of_decide_eq_true hpair.2, ?_⟩
        cases hresp
        rfl

/-- Witness for `generate_cache_spec`: a concrete hit on a live cached row
returns the cached content without calling the LLM. -/
theorem generate_cache_spec_witness :
    generateCore (fun s => s) (fun _ _ => "gen") "m" 0
        [⟨"S\n\nU", "resp", "m", 100⟩] "S" "U" =
      ⟨"resp", true, false, [⟨"S\n\nU", "resp", "m", 100⟩]⟩ := by
  have h := generate_cache_spec (fun s => s) (fun _ _ => "gen") "m" 0
    [⟨"S\n\nU", "resp", "m", 100⟩] "S" "U" (by decide)
  exact h.1 ⟨"S\n\nU", "resp", "m", 100⟩ (by decide) (by decide) (by decide) (by decide)

/-- C3 (counterexample).  A live cache row whose stored response is the
empty string is a JS-falsy `cachedResponse`, so `generate` regenerates and
reports `cached = false` even though a row with the prompt's hash and a
future expiry exists; and because the conflicting insert's error is
ignored, the generated response is not stored either — the cache still
holds the old row afterwards, refuting the claim's "upserts the response
into llm_cache". -/
theorem generate_empty_response_cex :
    checkCache 0 [⟨"S\n\nU", "", "m", 100⟩] ((fun s => s) ("S" ++ "\n\n" ++ "U")) =
        some "" ∧
      (generateCore (fun s => s) (fun _ _ => "gen") "m" 0
          [⟨"S\n\nU", "", "m", 100⟩] "S" "U").cached = false ∧
      (generateCore (fun s => s) (fun _ _ => "gen") "m" 0
          [⟨"S\n\nU", "", "m", 100⟩] "S" "U").llmCalled = true ∧
      (generateCore (fun s => s) (fun _ _ => "gen") "m" 0
          [⟨"S\n\nU", "", "m", 100⟩] "S" "U").cache = [⟨"S\n\nU", "", "m", 100⟩] := by
  decide

/-- Witness for `jobManager_invariants`: a fresh single-file job satisfies
the invariant and reports progress 0 ≤ 100. -/
theorem jobManager_invariants_witness :
    JobInv (createJob "j1" "cpp" "17" ["a.md"]) ∧
      ((getJobProgress (createJobOp emptyJobStore "j" "c" "v" ["a.md"]).2 "j").map
        JobProgress.progress).getD 101 ≤ 100 := by
  refine ⟨jobManager_invariants.1 "j1" "cpp" "17" ["a.md"], ?_⟩
  have hst : StoreInv (createJobOp emptyJobStore "j" "c" "v" ["a.md"]).2 :=
    jobManager_invariants.2.1 emptyJobStore "j" "c" "v" ["a.md"] storeInv_empty
  have hpr : getJobProgress (createJobOp emptyJobStore "j" "c" "v" ["a.md"]).2 "j" =
      some ⟨.pending, 0, 0, 0, 1, [⟨"a.md", .pending, none, none, none, none⟩]⟩ := by
    rfl
  have hb := jobManager_invariants.2.2.2.2.1
    (createJobOp emptyJobStore "j" "c" "v" ["a.md"]).2 "j" _ hst hpr
  rw [hpr]
  exact hb.1

/-! ## Code validation -/

/-- C9.  `prepareCode` raises a `CompilerError` exactly when the sanitized
code is empty or whitespace-only, longer than 100000 characters (both with
code `VALIDATION_FAILED`), or matches a forbidden pattern (then with code
`FORBIDDEN_CODE` and the first matching pattern's reason); otherwise it
returns the sanitized code with the style warnings of the matching warning
patterns; and the compile route maps both `FORBIDDEN_CODE` and
`VALIDATION_FAILED` to HTTP 400. -/
theorem prepareCode_spec (code : List Char) :
    (exceptIsError (prepareCode code) = true ↔
      ((jsTrim (sanitizeCode code)).length = 0 ∨
        maxCodeLength < (sanitizeCode code).length ∨
        forbiddenList.any (fun pr => testPat pr.1 (sanitizeCode code)) = true)) ∧
    ((jsTrim (sanitizeCode code)).length = 0 →
      prepareCode code = .error ⟨"Code cannot be empty", .VALIDATION_FAILED⟩) ∧
    ((jsTrim (sanitizeCode code)).length ≠ 0 →
      maxCodeLength < (sanitizeCode code).length →
      prepareCode code =
        .error ⟨"Code exceeds maximum length of 100000 characters",
          .VALIDATION_FAILED⟩) ∧
    (∀ pr, (jsTrim (sanitizeCode code)).length ≠ 0 →
      (sanitizeCode code).length ≤ maxCodeLength →
      forbiddenList.find? (fun pr => testPat pr.1 (sanitizeCode code)) = some pr →
      prepareCode code = .error ⟨pr.2, .FORBIDDEN_CODE⟩) ∧
    ((jsTrim (sanitizeCode code)).length ≠ 0 →
      (sanitizeCode code).length ≤ maxCodeLength →
      forbiddenList.all (fun pr => !testPat pr.1 (sanitizeCode code)) →
      prepareCode code = .ok (sanitizeCode code,
        warningList.filterMap (fun pr =>
          if testPat pr.1 (sanitizeCode code) then some pr.2 else none))) ∧
    compileErrorStatus .FORBIDDEN_CODE = 400 ∧
    compileErrorStatus .VALIDATION_FAILED = 400 := by
  refine ⟨?_, ?_, ?_, ?_, ?_, rfl, rfl⟩
  · by_cases h1 : (jsTrim (sanitizeCode code)).length = 0
    · simp [prepareCode, validateCode, h1, exceptIsError]
    · by_cases h2 : maxCodeLength < (sanitizeCode code).length
      · simp [prepareCode, validateCode, h1, h2, exceptIsError]
      · rcases hfind : forbiddenList.find?
            (fun pr => testPat pr.1 (sanitizeCode code)) with _ | pr
        · have hany : forbiddenList.any
              (fun pr => testPat pr.1 (sanitizeCode code)) = false := by
            rw [List.any_eq_false]
            intro x hx
            have := List.find?_eq_none.mp hfind x hx
            simpa using this
          simp [prepareCode, validateCode, h1, h2, hfind, exceptIsError, hany]
        · have hp := List.find?_some hfind
          have hmem := List.mem_of_find?_eq_some hfind
          have hany : forbiddenList.any
              (fun pr => testPat pr.1 (sanitizeCode code)) = true :=
            List.any_eq_true.mpr ⟨pr, hmem, hp⟩
          simp [prepareCode, validateCode, h1, h2, hfind, exceptIsError, hany]
  · intro h1
    simp [prepareCode, validateCode, h1]
  · intro h1 h2
    simp [prepareCode, validateCode, h1, h2]
  · intro pr h1 h2 hfind
    simp [prepareCode, validateCode, h1, Nat.not_lt.mpr h2, hfind]
  · intro h1 h2 hall
    have hfind : forbiddenList.find?
        (fun pr => testPat pr.1 (sanitizeCode code)) = none := by
      rw [List.find?_eq_none]
      intro x hx
      have := List.all_eq_true.mp hall x hx
      simpa using this
    simp [prepareCode, validateCode, h1, Nat.not_lt.mpr h2, hfind]

/-- Witness for `prepareCode_spec`: `goto x` passes validation with the
goto style warning. -/
theorem prepareCode_spec_witness :
    prepareCode "goto x".data =
      .ok (sanitizeCode "goto x".data,
        warningList.filterMap (fun pr =>
          if testPat pr.1 (sanitizeCode "goto x".data) then some pr.2 else none)) := by
  exact (prepareCode_spec "goto x".data).2.2.2.2.1 (by decide) (by decide) (by decide)

/-! ## Text chunker -/

/-- A `lastIndexOf` result is `-1` or a valid in-range match index. -/
theorem lastIndexOf_spec (hay pat : List Char) :
    lastIndexOf hay pat = -1 ∨
      (0 ≤ lastIndexOf hay pat ∧
        (lastIndexOf hay pat).toNat + pat.length ≤ hay.length) := by
  rcases hl : ((List.range (hay.length + 1)).filter (matchesAt hay pat)).getLast? with _ | i
  · left
    simp [lastIndexOf, hl]
  · right
    have hi : i ∈ (List.range (hay.length + 1)).filter (matchesAt hay pat) := by
      have hmem : i ∈ ((List.range (hay.length + 1)).filter (matchesAt hay pat)).getLast? := by
        rw [hl]; exact rfl
      obtain ⟨hne, heq⟩ := List.mem_getLast?_eq_getLast hmem
      rw [heq]
      exact List.getLast_mem hne
    have hrange : i < hay.length + 1 := List.mem_range.mp (List.mem_of_mem_filter hi)
    have hmatch : matchesAt hay pat i = true := List.of_mem_filter hi
    have heq2 : ((hay.drop i).take pat.length) = pat := by
      simpa [matchesAt] using hmatch
    have hlen := congrArg List.length heq2
    simp only [List.length_take, List.length_drop] at hlen
    simp only [lastIndexOf, hl]
    constructor
    · exact Int.natCast_nonneg i
    · simp only [Int.toNat_natCast]
      omega

theorem jsSlice_length_le (s : List Char) (a b : Int) (ha : 0 ≤ a) (hb : 0 ≤ b) :
    (jsSlice s a b).length ≤ (b - a).toNat := by
  have hna : ¬ a < 0 := by omega
  have hnb : ¬ b < 0 := by omega
  simp only [jsSlice, if_neg hna, if_neg hnb, List.length_drop, List.length_take]
  omega

theorem jsTrim_length_le (s : List Char) : (jsTrim s).length ≤ s.length := by
  have h1 : (s.dropWhile wsChar).length ≤ s.length := (List.dropWhile_suffix _).length_le
  have h2 : ((s.dropWhile wsChar).reverse.dropWhile wsChar).length ≤
      (s.dropWhile wsChar).reverse.length := (List.dropWhile_suffix _).length_le
  simp only [jsTrim, List.length_reverse] at *
  omega

/-- With the default options (2000-char chunks, 200-char search window),
one iteration's `endIndex` lies in `(start + 1800, start + 2000]`. -/
theorem computeEnd_default_bounds (text : List Char) (start : Int) (h0 : 0 ≤ start) :
    computeEnd text 2000 start ≤ start + 2000 ∧
      start + 1801 ≤ computeEnd text 2000 start := by
  unfold computeEnd
  by_cases hlt : start + (2000 : Nat) < (text.length : Int)
  · simp only [if_pos hlt]
    have hss : max (start + (2000 : Nat) - 200) start = start + 1800 := by
      push_cast
      omega
    rw [hss]
    have hsl : (jsSlice text (start + 1800) (start + (2000 : Nat))).length ≤ 200 := by
      have := jsSlice_length_le text (start + 1800) (start + (2000 : Nat)) (by omega) (by omega)
      omega
    by_cases hp : lastIndexOf (jsSlice text (start + 1800) (start + (2000 : Nat)))
        ['\n', '\n'] ≠ -1
    · simp only [if_pos hp]
      rcases lastIndexOf_spec (jsSlice text (start + 1800) (start + (2000 : Nat)))
          ['\n', '\n'] with h | ⟨hge, hub⟩
      · exact absurd h hp
      · simp only [List.length_cons, List.length_nil] at hub
        omega
    · simp only [if_neg hp]
      by_cases hs : max
          (max (lastIndexOf (jsSlice text (start + 1800) (start + (2000 : Nat))) ['.', ' '])
            (lastIndexOf (jsSlice text (start + 1800) (start + (2000 : Nat))) ['.', '\n']))
          (max (lastIndexOf (jsSlice text (start + 1800) (start + (2000 : Nat))) ['?', ' '])
            (lastIndexOf (jsSlice text (start + 1800) (start + (2000 : Nat))) ['!', ' '])) ≠ -1
      · simp only [if_pos hs]
        rcases lastIndexOf_spec (jsSlice text (start + 1800) (start + (2000 : Nat)))
            ['.', ' '] with h1 | ⟨h1a, h1b⟩ <;>
          rcases lastIndexOf_spec (jsSlice text (start + 1800) (start + (2000 : Nat)))
              ['.', '\n'] with h2 | ⟨h2a, h2b⟩ <;>
            rcases lastIndexOf_spec (jsSlice text (start + 1800) (start + (2000 : Nat)))
                ['?', ' '] with h3 | ⟨h3a, h3b⟩ <;>
              rcases lastIndexOf_spec (jsSlice text (start + 1800) (start + (2000 : Nat)))
                  ['!', ' '] with h4 | ⟨h4a, h4b⟩ <;>
                simp only [List.length_cons, List.length_nil] at * <;>
                omega
      · simp only [if_neg hs]
        by_cases hw : lastIndexOf (jsSlice text (start + 1800) (start + (2000 : Nat)))
            [' '] ≠ -1
        · simp only [if_pos hw]
          rcases lastIndexOf_spec (jsSlice text (start + 1800) (start + (2000 : Nat)))
              [' '] with h | ⟨hge, hub⟩
          · exact absurd h hw
          · simp only [List.length_cons, List.length_nil] at hub
            omega
        · simp only [if_neg hw]
          push_cast
          omega
  · simp only [if_neg hlt]
    push_cast
    omega

/-- With default options the loop always finishes within `len - start`
iterations (each iteration advances the start by at least 1601), and every
chunk it appends is at most 2000 characters long. -/
theorem chunkLoop_default (text : List Char) :
    ∀ (n : Nat) (start : Int) (acc : List (List Char)),
      0 ≤ start → (text.length : Int) ≤ start + n →
      ∃ r, chunkLoop text 2000 200 n start acc = some r ∧
        ∀ c ∈ r, c ∈ acc ∨ c.length ≤ 2000 := by
  intro n
  induction n with
  | zero =>
    intro start acc h0 hle
    have h : ¬ (start < (text.length : Int)) := by omega
    exact ⟨acc, by simp [chunkLoop, h], fun c hc => Or.inl hc⟩
  | succ n ih =>
    intro start acc h0 hle
    by_cases hlt : start < (text.length : Int)
    · obtain ⟨hub, hlb⟩ := computeEnd_default_bounds text start h0
      have h0' : 0 ≤ nextStart text 2000 200 start := by
        unfold nextStart; omega
      have hle' : (text.length : Int) ≤ nextStart text 2000 200 start + n := by
        unfold nextStart
        push_cast at hle ⊢
        omega
      obtain ⟨r, hr, hprop⟩ := ih (nextStart text 2000 200 start)
        (acc ++ [jsTrim (jsSlice text start (computeEnd text 2000 start))]) h0' hle'
      refine ⟨r, by simp [chunkLoop, hlt, hr], ?_⟩
      intro c hc
      rcases hprop c hc with hin | hbound
      · rcases List.mem_append.mp hin with h | h
        · exact Or.inl h
        · right
          have hcc : c = jsTrim (jsSlice text start (computeEnd text 2000 start)) := by
            simpa using h
          subst hcc
          have t1 := jsTrim_length_le (jsSlice text start (computeEnd text 2000 start))
          have t2 := jsSlice_length_le text start (computeEnd text 2000 start) h0 (by omega)
          omega
      · exact Or.inr hbound
    · exact ⟨acc, by simp [chunkLoop, hlt], fun c hc => Or.inl hc⟩

/-- C2.  With the default options, `chunkText` (given fuel `len + 1`, which
the loop never exhausts) returns chunks of at most 2000 characters (500
estimated tokens at 4 chars per token); a text of at most 2000 characters
is returned unchanged as a single chunk. -/
theorem chunkText_default_bounds (text : List Char) :
    ∃ chunks, chunkText (text.length + 1) text {} = some chunks ∧
      (∀ c ∈ chunks, c.length ≤ 2000) ∧
      (text.length ≤ 2000 → chunks = [text]) := by
  by_cases hlen : text.length ≤ 2000
  · refine ⟨[text], ?_, ?_, fun _ => rfl⟩
    · simp [chunkText, hlen]
    · intro c hc
      rcases List.mem_singleton.mp hc with rfl
      exact hlen
  · obtain ⟨r, hr, hprop⟩ := chunkLoop_default text (text.length + 1) 0 [] le_rfl
      (by push_cast; omega)
    refine ⟨r.filter (fun c => 0 < c.length), ?_, ?_, fun h => absurd h hlen⟩
    · simp [chunkText, hlen, hr]
    · intro c hc
      have hcr : c ∈ r := List.mem_of_mem_filter hc
      rcases hprop c hcr with h | h
      · cases h
      · exact h

/-- Witness for `chunkText_default_bounds` at a concrete short text. -/
theorem chunkText_default_bounds_witness :
    ∃ chunks, chunkText ("hi".data.length + 1) "hi".data {} = some chunks ∧
      (∀ c ∈ chunks, c.length ≤ 2000) ∧
      ("hi".data.length ≤ 2000 → chunks = ["hi".data]) :=
  chunkText_default_bounds "hi".data

/-- C6 (amended).  With the *default* options every iteration advances the
start index by at least 1601 characters, so `chunkText` terminates — fuel
`len + 1` always suffices.  (For adversarial options with overlap at least
the chunk advance, the loop does not terminate; see the counterexample.) -/
theorem chunkText_default_terminating (text : List Char) (start : Int)
    (h0 : 0 ≤ start) :
    start + 1601 ≤ nextStart text 2000 200 start ∧
      ∃ chunks, chunkText (text.length + 1) text {} = some chunks := by
  constructor
  · have := (computeEnd_default_bounds text start h0).2
    unfold nextStart
    omega
  · obtain ⟨chunks, hch, -⟩ := chunkText_default_bounds text
    exact ⟨chunks, hch⟩

/-- Witness for `chunkText_default_terminating`. -/
theorem chunkText_default_terminating_witness :
    (0 : Int) + 1601 ≤ nextStart "hi".data 2000 200 0 ∧
      ∃ chunks, chunkText ("hi".data.length + 1) "hi".data {} = some chunks :=
  chunkText_default_terminating "hi".data 0 (by omega)

/-! ## Compiler output parser -/

/-- C6 (counterexample).  With options `maxTokens = 1, overlapTokens = 1`
(so `maxChars = overlapChars = 4`) on a ten-`a` text, the first iteration's
next start index equals the current one — the start does **not** strictly
increase — and the loop never finishes: `chunkText` exhausts any fuel, here
100. -/
theorem chunkText_nonterminating_cex :
    nextStart (List.replicate 10 'a') 4 4 0 = 0 ∧
      chunkText 100 (List.replicate 10 'a') ⟨some 1, some 1⟩ = none := by
  constructor
  · decide
  · decide

end Shuguri
